import Mathlib

/-!
Shallow embedding of the `passgen` password generator (src/lib.rs) and
verification of its specification.

Byte strings are modelled as `List ℕ` (each entry a `u8` value).  Fallible
Rust functions returning `anyhow::Result` are modelled with `RustResult`,
which also has a `crash` case for abnormal termination (a Rust panic, e.g.
a failing `unwrap`).  The full printable-ASCII bit table, the charset
parser state machine, and the base-conversion sampler are translated
arm-for-arm from the source.
-/

namespace Passgen

/-- Outcome of a Rust computation: `ok`/`err` mirror `anyhow::Result`;
`crash` marks abnormal termination (a panic, e.g. `unwrap` on `None`). -/
inductive RustResult (α : Type) where
  | crash : RustResult α
  | err : String → RustResult α
  | ok : α → RustResult α
deriving DecidableEq

def RustResult.bind {α β : Type} : RustResult α → (α → RustResult β) → RustResult β
  | .crash, _ => .crash
  | .err e, _ => .err e
  | .ok a, k => k a

instance : Monad RustResult where
  pure := RustResult.ok
  bind := RustResult.bind

@[simp] lemma ok_bind {α β : Type} (a : α) (k : α → RustResult β) :
    RustResult.ok a >>= k = k a := rfl

@[simp] lemma err_bind {α β : Type} (e : String) (k : α → RustResult β) :
    (RustResult.err e : RustResult α) >>= k = .err e := rfl

@[simp] lemma crash_bind {α β : Type} (k : α → RustResult β) :
    (RustResult.crash : RustResult α) >>= k = .crash := rfl

/-! ### Charset compiler (lib.rs lines 12-25 and 70-160) -/

/-- `enum CharsetParserState` (lib.rs:13-19). -/
inductive CharsetParserState where
  | Start : CharsetParserState
  | Char : ℕ → CharsetParserState
  | Escape : CharsetParserState
  | Range : ℕ → CharsetParserState
  | RangeEscape : ℕ → CharsetParserState

/-- `const HYPHEN: u8 = 45` (lib.rs:21). -/
def HYPHEN : ℕ := 45

/-- `const BACKSLASH: u8 = 92` (lib.rs:22). -/
def BACKSLASH : ℕ := 92

/-- `const CARET: u8 = 94` (lib.rs:23). -/
def CARET : ℕ := 94

/-- `const TYPEABLE: [u64; 2]` (lib.rs:25), the 128-bit table of
printable ASCII bytes, as two little-endian 64-bit words. -/
def TYPEABLE : List ℕ := [0xffffffff00000000, 0x7fffffffffffffff]

/-- `BitSlice::get` on a bit array backed by the given 64-bit words
(`Lsb0` order): `some` of the bit for an in-range index, `none` past the
end of the array. -/
def bitArrayGet (words : List ℕ) (i : ℕ) : Option Bool :=
  if i < 64 * words.length then some ((words.getD (i / 64) 0).testBit (i % 64)) else none

/-- The bit of the `TYPEABLE` array at index `i` (false past bit 127),
i.e. whether byte `i` is a printable ASCII byte. -/
def typeableBit (i : ℕ) : Bool := (bitArrayGet TYPEABLE i).getD false

/-- `result.set(byte as usize, true)` on the working bit set, modelled as a
characteristic function update.  (Reachable calls always have
`byte ≤ 126`, inside the 128-bit array.) -/
def bitSet (f : ℕ → Bool) (b : ℕ) : ℕ → Bool :=
  fun j => if j = b then true else f j

/-- `for byte in (start + 1)..=end { result.set(byte as usize, true) }`
(lib.rs:127-129): mark the open-closed interval `(start, end]`. -/
def markRange (f : ℕ → Bool) (s e : ℕ) : ℕ → Bool :=
  fun j => if s + 1 ≤ j ∧ j ≤ e then true else f j

/-- `typeable.get(byte as usize).unwrap()` (lib.rs:90): crashes (panics)
when the index is past bit 127, since the bit array has only 128 bits. -/
def typeableCheck (byte : ℕ) : RustResult Bool :=
  match bitArrayGet TYPEABLE byte with
  | none => .crash
  | some tb => .ok tb

/-- The `for &byte in bytes` loop of `parse_charset_spec`
(lib.rs:89-142), one arm per `match (state, byte)` arm. -/
def parseLoop (state : CharsetParserState) (f : ℕ → Bool) :
    List ℕ → RustResult (CharsetParserState × (ℕ → Bool))
  | [] => .ok (state, f)
  | byte :: rest =>
    typeableCheck byte >>= fun tb =>
      if tb = false then .err ("found untypeable or non-ASCII character")
      else
        match state with
        | .Start =>
          if byte = HYPHEN then .err ("hyphens must be escaped")
          else if byte = BACKSLASH then parseLoop .Escape f rest
          else parseLoop (.Char byte) (bitSet f byte) rest
        | .Char prev =>
          if byte = HYPHEN then parseLoop (.Range prev) f rest
          else if byte = BACKSLASH then parseLoop .Escape f rest
          -- lib.rs:110-112: the bit is set but the state keeps the old
          -- `prev`; the source does not update it to `Char(byte)`.
          else parseLoop (.Char prev) (bitSet f byte) rest
        | .Escape =>
          if byte ≠ HYPHEN ∧ byte ≠ BACKSLASH then
            .err ("invalid escape sequence: \"\\" ++ (Char.ofNat byte).toString ++ "\"")
          else parseLoop (.Char byte) (bitSet f byte) rest
        | .Range start =>
          if byte = HYPHEN then .err ("hyphens must be escaped")
          else if byte = BACKSLASH then parseLoop (.RangeEscape start) f rest
          else parseLoop .Start (markRange f start byte) rest
        | .RangeEscape start =>
          if byte ≠ HYPHEN ∧ byte ≠ BACKSLASH then
            .err ("invalid escape sequence: \"\\" ++ (Char.ofNat byte).toString ++ "\"")
          else parseLoop .Start (markRange f start byte) rest

/-- The final allowed set (lib.rs:149-153): when the inversion marker was
present the complement of the accumulated set is taken within the
`TYPEABLE` universe (`result = typeable; result &= !tmp`). -/
def finalSet (invert : Bool) (f : ℕ → Bool) : ℕ → Bool :=
  if invert then fun i => typeableBit i && !(f i) else f

/-- Post-processing of the accumulated bit set (lib.rs:148-158):
`result.not_any()` fails with "character set is empty", otherwise
`iter_ones` flattens the set into the ascending list of set bits. -/
def finalize (invert : Bool) (f : ℕ → Bool) : RustResult (List ℕ) :=
  if (List.range 128).all (fun i => !(finalSet invert f i)) then
    .err ("character set is empty")
  else
    .ok ((List.range 128).filter (fun i => finalSet invert f i))

/-- `let invert = bytes[0] == CARET` (lib.rs:81), on a non-empty
specification. -/
def invertOf (charset_spec : List ℕ) : Bool := charset_spec.headD 0 == CARET

/-- The byte iterator fed to the parser loop: the first byte is skipped
when it is the inversion marker (lib.rs:82-85). -/
def specBytes (charset_spec : List ℕ) : List ℕ :=
  if invertOf charset_spec then charset_spec.tail else charset_spec

/-- `pub fn parse_charset_spec(charset_spec: &String) -> Result<Vec<u8>>`
(lib.rs:70-160), on the byte string of the specification. -/
def parse_charset_spec (charset_spec : List ℕ) : RustResult (List ℕ) :=
  if charset_spec.isEmpty then .err ("empty charset specification")
  else
    match parseLoop .Start (fun _ => false) (specBytes charset_spec) with
    | .crash => .crash
    | .err e => .err e
    | .ok (state, f) =>
      match state with
      | .Escape => .err ("unterminated escape sequence")
      | .RangeEscape _ => .err ("unterminated escape sequence")
      | .Range _ => .err ("unterminated character range")
      | _ => finalize (invertOf charset_spec) f

/-! ### Password sampler (lib.rs lines 27-68) -/

/-- The default charset when no specification is given (lib.rs:36-39):
`iter_ones` of the `TYPEABLE` bit array. -/
def default_charset : List ℕ := (List.range 128).filter (fun i => typeableBit i)

/-- The `match charset_spec` at the top of `generate` (lib.rs:32-40). -/
def charsetOf (charset_spec : Option (List ℕ)) : RustResult (List ℕ) :=
  match charset_spec with
  | some spec => parse_charset_spec spec
  | none => .ok default_charset

/-- Fuel-driven bit length: `bitsFuel fuel n` halves `n` until it reaches
zero, counting steps; `fuel ≥ n` suffices. -/
def bitsFuel : ℕ → ℕ → ℕ
  | 0, _ => 0
  | fuel + 1, n => if n = 0 then 0 else bitsFuel fuel (n / 2) + 1

/-- `BigUint::bits()`: 0 for 0, otherwise `⌊log2 n⌋ + 1`. -/
def bits (n : ℕ) : ℕ := bitsFuel n n

/-- `let num_bits = BigUint::from(base).pow(total_chars as u32).bits()`
(lib.rs:44).  The `usize → u32` cast silently truncates the exponent
modulo `2 ^ 32` on a 64-bit target, so the exponent is
`total_chars % 2 ^ 32`. -/
def num_bits (base total_chars : ℕ) : ℕ := bits (base ^ (total_chars % 2 ^ 32))

/-- `let num_bytes = (num_bits / 8) + 1` (lib.rs:45): the number of random
bytes requested from the entropy provider. -/
def num_bytes (base total_chars : ℕ) : ℕ := num_bits base total_chars / 8 + 1

/-- `BigUint::from_bytes_le(&buffer)` (lib.rs:48). -/
def fromBytesLE : List ℕ → ℕ
  | [] => 0
  | b :: rest => b + 256 * fromBytesLE rest

/-- The random integer `value` (lib.rs:42-49): `num_bytes` bytes are drawn
from the entropy provider (modelled as a stream `entropy` of bytes, taken
mod 256 to reflect `u8`) and read as a little-endian integer. -/
def drawn_value (base total_chars : ℕ) (entropy : ℕ → ℕ) : ℕ :=
  fromBytesLE ((List.range (num_bytes base total_chars)).map (fun i => entropy i % 256))

/-- Rust slice indexing `charset[idx]`: crashes (panics) out of bounds. -/
def listIndex (xs : List ℕ) (i : ℕ) : RustResult ℕ :=
  match xs[i]? with
  | some x => .ok x
  | none => .crash

/-- The inner `for _ in 0..password_len` loop of `generate`
(lib.rs:54-60): extract one password, least-significant digit first,
returning the bytes and the remaining `value`.  When the charset is empty
the division by zero and the indexing both abort; the model crashes at
`listIndex` (`value % 0 = value` is never a valid index of `[]`). -/
def genPassword (charset : List ℕ) : ℕ → ℕ → RustResult (List ℕ × ℕ)
  | value, 0 => .ok ([], value)
  | value, len + 1 =>
    listIndex charset (value % charset.length) >>= fun ch =>
    genPassword charset (value / charset.length) len >>= fun rv =>
    .ok (ch :: rv.1, rv.2)

/-- The outer `loop` of `generate` (lib.rs:52-66), producing one password
per iteration.  The Rust loop is do-while shaped (`break` after the
push when `passwords.len() == num_passwords`), so it agrees with this
recursion for every `num_passwords ≥ 1`; for `num_passwords = 0` the Rust
loop never terminates, a case the callers reject up front (main.rs:53). -/
def genPasswords (charset : List ℕ) (password_len : ℕ) :
    ℕ → ℕ → RustResult (List (List ℕ) × ℕ)
  | 0, value => .ok ([], value)
  | n + 1, value =>
    genPassword charset value password_len >>= fun pv =>
    genPasswords charset password_len n pv.2 >>= fun rv =>
    .ok (pv.1 :: rv.1, rv.2)

/-- `pub fn generate(charset_spec, password_len, num_passwords)`
(lib.rs:27-68).  Passwords are kept as byte lists; the
`String::from_utf8(..).unwrap()` on them never fails since every charset
byte is printable ASCII. -/
def generate (charset_spec : Option (List ℕ)) (password_len num_passwords : ℕ)
    (entropy : ℕ → ℕ) : RustResult (List (List ℕ)) :=
  charsetOf charset_spec >>= fun charset =>
  genPasswords charset password_len num_passwords
    (drawn_value charset.length (password_len * num_passwords) entropy) >>= fun pv =>
  .ok pv.1

/-- Bytes stored inside a parser state are printable ASCII. -/
def stInv : CharsetParserState → Prop
  | .Char p => 32 ≤ p ∧ p ≤ 126
  | .Range s => 32 ≤ s ∧ s ≤ 126
  | .RangeEscape s => 32 ≤ s ∧ s ≤ 126
  | _ => True

/-- Every bit set in the working set is a printable ASCII byte. -/
def setInv (f : ℕ → Bool) : Prop := ∀ j, f j = true → 32 ≤ j ∧ j ≤ 126

/-! ### Helper lemmas -/

lemma bitsFuel_zero (fuel : ℕ) : bitsFuel fuel 0 = 0 := by
  cases fuel <;> simp [bitsFuel]

lemma bitsFuel_spec (fuel : ℕ) :
    ∀ n, 1 ≤ n → n ≤ fuel →
      2 ^ (bitsFuel fuel n - 1) ≤ n ∧ n < 2 ^ (bitsFuel fuel n) := by
  induction fuel with
  | zero => intro n h1 h2; omega
  | succ fuel ih =>
    intro n h1 h2
    have hne : ¬n = 0 := by omega
    rw [bitsFuel, if_neg hne]
    rcases Nat.lt_or_ge n 2 with hn2 | hn2
    · have : n = 1 := by omega
      subst this
      simp [bitsFuel_zero]
    · have hd1 : 1 ≤ n / 2 := Nat.one_le_div_iff (by omega) |>.mpr hn2
      have hdf : n / 2 ≤ fuel := by
        have : n / 2 < n := Nat.div_lt_self (by omega) (by omega)
        omega
      obtain ⟨hlo, hhi⟩ := ih (n / 2) hd1 hdf
      constructor
      · have : 2 ^ (bitsFuel fuel (n / 2)) ≤ 2 * (n / 2) := by
          calc 2 ^ (bitsFuel fuel (n / 2))
              = 2 * 2 ^ (bitsFuel fuel (n / 2) - 1) := by
                have hb1 : 1 ≤ bitsFuel fuel (n / 2) := by
                  by_contra hb
                  have : bitsFuel fuel (n / 2) = 0 := by omega
                  rw [this] at hhi
                  omega
                rw [← pow_succ']
                congr 1
                omega
            _ ≤ 2 * (n / 2) := by omega
        have h2n : 2 * (n / 2) ≤ n := by omega
        simpa using le_trans this h2n
      · have : n < 2 ^ (bitsFuel fuel (n / 2)) * 2 :=
          (Nat.div_lt_iff_lt_mul (by omega)).mp hhi
        calc n < 2 ^ (bitsFuel fuel (n / 2)) * 2 := this
          _ = 2 ^ (bitsFuel fuel (n / 2) + 1) := by rw [pow_succ]

/-- `bits n` is the bit length of `n`: the unique `b` with
`2 ^ (b - 1) ≤ n < 2 ^ b` (for `n ≥ 1`). -/
lemma bits_spec (n : ℕ) (h : 1 ≤ n) :
    2 ^ (bits n - 1) ≤ n ∧ n < 2 ^ (bits n) :=
  bitsFuel_spec n n h le_rfl

lemma typeable_get_lt (x : ℕ) (h : x < 128) :
    bitArrayGet TYPEABLE x = some (typeableBit x) := by
  have hlt : x < 64 * TYPEABLE.length := by simp [TYPEABLE]; omega
  simp [typeableBit, bitArrayGet, if_pos hlt]

lemma typeable_get_ge (x : ℕ) (h : 128 ≤ x) :
    bitArrayGet TYPEABLE x = none := by
  have hlt : ¬x < 64 * TYPEABLE.length := by simp [TYPEABLE]; omega
  simp [bitArrayGet, if_neg hlt]

/-- The `TYPEABLE` table holds exactly the printable ASCII bytes 32-126. -/
lemma typeableBit_iff (x : ℕ) : typeableBit x = true ↔ (32 ≤ x ∧ x ≤ 126) := by
  rcases Nat.lt_or_ge x 128 with h | h
  · revert h
    revert x
    decide
  · have : typeableBit x = false := by
      simp [typeableBit, typeable_get_ge x h]
    simp [this]
    omega

lemma typeable_get_some (x : ℕ) (h1 : 32 ≤ x) (h2 : x ≤ 126) :
    bitArrayGet TYPEABLE x = some true := by
  rw [typeable_get_lt x (by omega), (typeableBit_iff x).mpr ⟨h1, h2⟩]

lemma mem_filter_range (g : ℕ → Bool) (b : ℕ) :
    b ∈ (List.range 128).filter g ↔ (b < 128 ∧ g b = true) := by
  simp [List.mem_filter, List.mem_range]

lemma sorted_filter_range (g : ℕ → Bool) :
    List.Sorted (· < ·) ((List.range 128).filter g) :=
  List.Pairwise.sublist (List.filter_sublist _) (List.pairwise_lt_range 128)

lemma filter_range_ne_nil (g : ℕ → Bool) (b : ℕ) (hb : b < 128) (hg : g b = true) :
    (List.range 128).filter g ≠ [] :=
  List.ne_nil_of_mem ((mem_filter_range g b).mpr ⟨hb, hg⟩)

lemma all_not_eq_false (g : ℕ → Bool) (b : ℕ) (hb : b < 128) (hg : g b = true) :
    (List.range 128).all (fun i => !(g i)) = false := by
  rcases h : (List.range 128).all (fun i => !(g i)) with _ | _
  · rfl
  · have := List.all_eq_true.mp h b (List.mem_range.mpr hb)
    simp [hg] at this

lemma setInv_bitSet {f : ℕ → Bool} {b : ℕ} (hf : setInv f)
    (h1 : 32 ≤ b) (h2 : b ≤ 126) : setInv (bitSet f b) := by
  intro j hj
  by_cases hjb : j = b
  · omega
  · exact hf j (by simpa [bitSet, hjb] using hj)

lemma setInv_markRange {f : ℕ → Bool} {s e : ℕ} (hf : setInv f)
    (hs : 32 ≤ s) (he : e ≤ 126) : setInv (markRange f s e) := by
  intro j hj
  by_cases hjr : s + 1 ≤ j ∧ j ≤ e
  · omega
  · exact hf j (by simpa [markRange, hjr] using hj)

lemma markRange_of_lt (f : ℕ → Bool) (s e : ℕ) (h : e < s) :
    markRange f s e = f := by
  funext j
  have : ¬(s + 1 ≤ j ∧ j ≤ e) := by omega
  simp [markRange, this]

/-- The parser loop preserves the working-set and state invariants. -/
lemma parseLoop_inv :
    ∀ (bytes : List ℕ) (st : CharsetParserState) (f : ℕ → Bool)
      (st' : CharsetParserState) (f' : ℕ → Bool),
      stInv st → setInv f → parseLoop st f bytes = .ok (st', f') →
      stInv st' ∧ setInv f' := by
  intro bytes
  induction bytes with
  | nil =>
    intro st f st' f' hst hf h
    simp only [parseLoop] at h
    cases h
    exact ⟨hst, hf⟩
  | cons byte rest ih =>
    intro st f st' f' hst hf h
    simp only [parseLoop] at h
    rcases hg : bitArrayGet TYPEABLE byte with _ | tb
    · simp only [typeableCheck, hg, crash_bind] at h
      cases h
    · simp only [typeableCheck, hg, ok_bind] at h
      rcases tb with _ | _
      · simp at h
      · have hb : 32 ≤ byte ∧ byte ≤ 126 := by
          apply (typeableBit_iff byte).mp
          rcases Nat.lt_or_ge byte 128 with hlt | hge
          · have h2 := typeable_get_lt byte hlt
            rw [h2] at hg
            exact Option.some_injective _ hg
          · rw [typeable_get_ge byte hge] at hg; cases hg
        rw [if_neg (by simp : ¬(true = false))] at h
        split at h
        -- Start
        · split at h
          · cases h
          · split at h
            · refine ih _ _ _ _ ?_ hf h
              trivial
            · refine ih _ _ _ _ ?_ (setInv_bitSet hf hb.1 hb.2) h
              exact hb
        -- Char prev
        · split at h
          · refine ih _ _ _ _ ?_ hf h
            exact hst
          · split at h
            · refine ih _ _ _ _ ?_ hf h
              trivial
            · refine ih _ _ _ _ ?_ (setInv_bitSet hf hb.1 hb.2) h
              exact hst
        -- Escape
        · split at h
          · cases h
          · refine ih _ _ _ _ ?_ (setInv_bitSet hf hb.1 hb.2) h
            exact hb
        -- Range start
        · split at h
          · cases h
          · split at h
            · refine ih _ _ _ _ ?_ hf h
              exact hst
            · refine ih _ _ _ _ ?_ (setInv_markRange hf hst.1 hb.2) h
              trivial
        -- RangeEscape start
        · split at h
          · cases h
          · refine ih _ _ _ _ ?_ (setInv_markRange hf hst.1 hb.2) h
            trivial

lemma filter_bitSet_empty (n a : ℕ) (h : a < n) :
    (List.range n).filter (fun j => bitSet (fun _ => false) a j) = [a] := by
  induction n with
  | zero => omega
  | succ n ih =>
    rw [List.range_succ, List.filter_append]
    by_cases han : a = n
    · subst han
      have h1 : (List.range a).filter (fun j => bitSet (fun _ => false) a j) = [] := by
        apply List.filter_eq_nil_iff.mpr
        intro j hj
        have : j < a := List.mem_range.mp hj
        simp [bitSet]
        omega
      have h2 : [a].filter (fun j => bitSet (fun _ => false) a j) = [a] := by
        simp [bitSet]
      rw [h1, h2]
      rfl
    · have h1 := ih (by omega)
      have h2 : [n].filter (fun j => bitSet (fun _ => false) a j) = [] := by
        simp [bitSet]
        omega
      rw [h1, h2]
      rfl

lemma listIndex_ok (xs : List ℕ) (i : ℕ) (h : i < xs.length) :
    listIndex xs i = .ok (xs.getD i 0) := by
  rw [listIndex, List.getElem?_eq_getElem h, List.getD_eq_getElem xs 0 h]

/-- Full description of one password extraction: it returns the digits of
`value` in base `charset.length`, least significant first, mapped through
the charset, and leaves `value / base ^ len` behind. -/
lemma genPassword_spec (charset : List ℕ) (hne : charset ≠ []) :
    ∀ (len value : ℕ),
      genPassword charset value len =
        .ok (((List.range len).map
          (fun i => charset.getD (value / charset.length ^ i % charset.length) 0)),
          value / charset.length ^ len) := by
  intro len
  induction len with
  | zero => intro value; simp [genPassword]
  | succ len ih =>
    intro value
    have hlen : 0 < charset.length := List.length_pos.mpr hne
    have hrem : value % charset.length < charset.length := Nat.mod_lt _ hlen
    have hdd : ∀ k : ℕ, value / charset.length / charset.length ^ k =
        value / charset.length ^ (k + 1) := by
      intro k
      rw [Nat.div_div_eq_div_mul, ← pow_succ']
    simp only [genPassword, listIndex_ok charset _ hrem, ih, ok_bind]
    rw [RustResult.ok.injEq, Prod.mk.injEq]
    refine ⟨?_, ?_⟩
    · rw [List.range_succ_eq_map, List.map_cons, List.map_map]
      congr 1
      · simp
      · apply List.map_congr_left
        intro i _
        simp only [Function.comp_apply]
        rw [hdd i]
    · rw [hdd len]

/-- Full description of the outer sampling loop: `n` passwords of
`password_len` digits each, consuming `password_len * n` digits of
`value` in order. -/
lemma genPasswords_spec (charset : List ℕ) (hne : charset ≠ []) (password_len : ℕ) :
    ∀ (n value : ℕ),
      genPasswords charset password_len n value =
        .ok (((List.range n).map (fun j => (List.range password_len).map
            (fun i => charset.getD
              (value / charset.length ^ (j * password_len + i) % charset.length) 0))),
          value / charset.length ^ (password_len * n)) := by
  intro n
  induction n with
  | zero => intro value; simp [genPasswords]
  | succ n ih =>
    intro value
    have hdd : ∀ k : ℕ, value / charset.length ^ password_len / charset.length ^ k =
        value / charset.length ^ (password_len + k) := by
      intro k
      rw [Nat.div_div_eq_div_mul, ← pow_add]
    simp only [genPasswords, genPassword_spec charset hne, ih, ok_bind]
    rw [RustResult.ok.injEq, Prod.mk.injEq]
    refine ⟨?_, ?_⟩
    · rw [List.range_succ_eq_map, List.map_cons, List.map_map]
      congr 1
      · apply List.map_congr_left
        intro i _
        have h0 : 0 * password_len + i = i := by ring
        rw [h0]
      · apply List.map_congr_left
        intro j _
        simp only [Function.comp_apply]
        apply List.map_congr_left
        intro i _
        rw [hdd (j * password_len + i)]
        have hE : password_len + (j * password_len + i) =
            Nat.succ j * password_len + i := by
          simp only [Nat.succ_eq_add_one]
          ring
        rw [hE]
    · rw [hdd (password_len * n)]
      have hE : password_len + password_len * n = password_len * (n + 1) := by ring
      rw [hE]

/-- A successfully compiled charset is the ascending list of set bits of
the final set. -/
lemma parse_ok_shape (spec r : List ℕ) (h : parse_charset_spec spec = .ok r) :
    r ≠ [] ∧ List.Sorted (· < ·) r ∧ ∀ b ∈ r, typeableBit b = true := by
  rw [parse_charset_spec] at h
  split at h
  · cases h
  · rcases hloop : parseLoop .Start (fun _ => false) (specBytes spec) with _ | e | p
    · rw [hloop] at h; cases h
    · rw [hloop] at h; cases h
    · rw [hloop] at h
      obtain ⟨st, f⟩ := p
      have hsf : setInv f :=
        (parseLoop_inv _ .Start (fun _ => false) st f trivial (fun j hj => by cases hj)
          hloop).2
      have hfin : finalize (invertOf spec) f = .ok r := by
        cases st
        · exact h
        · exact h
        · cases h
        · cases h
        · cases h
      rw [finalize] at hfin
      split at hfin
      · cases hfin
      · rename_i hall
        cases hfin
        have hset : setInv (finalSet (invertOf spec) f) := by
          rcases hinv : invertOf spec with _ | _
          · simpa [finalSet, hinv] using hsf
          · intro j hj
            simp only [finalSet, hinv, if_pos, Bool.and_eq_true] at hj
            exact (typeableBit_iff j).mp hj.1
        refine ⟨?_, sorted_filter_range _, ?_⟩
        · rcases hall2 : (List.range 128).all
              (fun i => !(finalSet (invertOf spec) f i)) with _ | _
          · have hex : ∃ i ∈ List.range 128,
                ¬(!(finalSet (invertOf spec) f i)) = true := by
              by_contra hc
              push_neg at hc
              have hall3 := List.all_eq_true.mpr hc
              rw [hall2] at hall3
              cases hall3
            obtain ⟨i, hi, hfi⟩ := hex
            have hfi' : finalSet (invertOf spec) f i = true := by
              revert hfi
              cases finalSet (invertOf spec) f i <;> simp
            exact filter_range_ne_nil _ i (List.mem_range.mp hi) hfi'
          · exact absurd hall2 hall
        · intro b hb
          have hmb := (mem_filter_range _ b).mp hb
          exact (typeableBit_iff b).mpr (hset b hmb.2)

lemma default_charset_ne_nil : default_charset ≠ [] := by decide

/-- Whatever `generate` uses as its charset is non-empty. -/
lemma charsetOf_ne_nil (spec : Option (List ℕ)) (C : List ℕ)
    (h : charsetOf spec = .ok C) : C ≠ [] := by
  cases spec with
  | none =>
    rw [charsetOf] at h
    cases h
    exact default_charset_ne_nil
  | some s => exact (parse_ok_shape s C h).1

lemma parseLoop_start (f : ℕ → Bool) (byte : ℕ) (rest : List ℕ)
    (h : bitArrayGet TYPEABLE byte = some true) :
    parseLoop .Start f (byte :: rest) =
      if byte = HYPHEN then .err ("hyphens must be escaped")
      else if byte = BACKSLASH then parseLoop .Escape f rest
      else parseLoop (.Char byte) (bitSet f byte) rest := by
  simp only [parseLoop, typeableCheck, h, ok_bind]
  rw [if_neg (by simp : ¬(true = false))]

lemma parseLoop_char (prev : ℕ) (f : ℕ → Bool) (byte : ℕ) (rest : List ℕ)
    (h : bitArrayGet TYPEABLE byte = some true) :
    parseLoop (.Char prev) f (byte :: rest) =
      if byte = HYPHEN then parseLoop (.Range prev) f rest
      else if byte = BACKSLASH then parseLoop .Escape f rest
      else parseLoop (.Char prev) (bitSet f byte) rest := by
  simp only [parseLoop, typeableCheck, h, ok_bind]
  rw [if_neg (by simp : ¬(true = false))]

lemma parseLoop_range (start : ℕ) (f : ℕ → Bool) (byte : ℕ) (rest : List ℕ)
    (h : bitArrayGet TYPEABLE byte = some true) :
    parseLoop (.Range start) f (byte :: rest) =
      if byte = HYPHEN then .err ("hyphens must be escaped")
      else if byte = BACKSLASH then parseLoop (.RangeEscape start) f rest
      else parseLoop .Start (markRange f start byte) rest := by
  simp only [parseLoop, typeableCheck, h, ok_bind]
  rw [if_neg (by simp : ¬(true = false))]

/-- Post-processing with the inversion flag on, given that post-processing
without it succeeded and that some typeable byte is missing from its
output: the inverted run succeeds and its output holds exactly the
typeable bytes outside the plain output. -/
lemma invert_finalize (f : ℕ → Bool) (r : List ℕ) (b₀ : ℕ)
    (hfin : finalize false f = .ok r)
    (hb₀T : typeableBit b₀ = true) (hb₀r : b₀ ∉ r) :
    finalize true f = .ok ((List.range 128).filter (fun i => finalSet true f i)) ∧
    ∀ b, b ∈ (List.range 128).filter (fun i => finalSet true f i) ↔
      (typeableBit b = true ∧ b ∉ r) := by
  have hfeq : (fun i => finalSet false f i) = f := rfl
  rw [finalize] at hfin
  split at hfin
  · cases hfin
  · have hr : r = (List.range 128).filter (fun i => finalSet false f i) := by
      cases hfin
      rfl
    have hmemr : ∀ b, b ∈ r ↔ (b < 128 ∧ f b = true) := by
      intro b
      rw [hr, hfeq]
      exact mem_filter_range f b
    have hb₀lt : b₀ < 128 := by
      have hbb := (typeableBit_iff b₀).mp hb₀T
      omega
    have hfb₀ : f b₀ = false := by
      rcases hfb : f b₀ with _ | _
      · rfl
      · exact absurd ((hmemr b₀).mpr ⟨hb₀lt, hfb⟩) hb₀r
    have hfs : finalSet true f b₀ = true := by
      simp [finalSet, hb₀T, hfb₀]
    have hcond : (List.range 128).all (fun i => !(finalSet true f i)) = false :=
      all_not_eq_false _ b₀ hb₀lt hfs
    constructor
    · rw [finalize, if_neg (by simp [hcond])]
    · intro b
      rw [mem_filter_range]
      constructor
      · rintro ⟨hb128, hfb⟩
        rw [show finalSet true f b = (typeableBit b && !(f b)) from rfl,
          Bool.and_eq_true] at hfb
        refine ⟨hfb.1, ?_⟩
        intro hbr
        have hfbt := (hmemr b).mp hbr
        simp [hfbt.2] at hfb
      · rintro ⟨hbT, hbr⟩
        have hblt : b < 128 := by
          have hbb := (typeableBit_iff b).mp hbT
          omega
        have hfb : f b = false := by
          rcases hfb2 : f b with _ | _
          · rfl
          · exact absurd ((hmemr b).mpr ⟨hblt, hfb2⟩) hbr
        exact ⟨hblt, by simp [finalSet, hbT, hfb]⟩

/-- `generate` on a successfully compiled (or default) charset: closed form
of its output. -/
lemma generate_eq (spec : Option (List ℕ)) (L N : ℕ) (entropy : ℕ → ℕ)
    (C : List ℕ) (hC : charsetOf spec = .ok C) (hne : C ≠ []) :
    generate spec L N entropy =
      .ok ((List.range N).map (fun j => (List.range L).map
        (fun i => C.getD
          (drawn_value C.length (L * N) entropy / C.length ^ (j * L + i) % C.length)
          0))) := by
  rw [generate, hC, ok_bind, genPasswords_spec C hne L N _, ok_bind]

lemma sum_lengths (L : ℕ) : ∀ (pws : List (List ℕ)),
    (∀ pw ∈ pws, pw.length = L) → (pws.map List.length).sum = L * pws.length
  | [], _ => by simp
  | pw :: rest, h => by
    simp only [List.map_cons, List.sum_cons, List.length_cons]
    rw [h pw (List.mem_cons_self _ _),
      sum_lengths L rest (fun p hp => h p (List.mem_cons_of_mem _ hp))]
    ring

/-! ### Claim theorems -/

/-- Claim C3: the spec claims every specification containing a byte outside
0x20-0x7E fails with an "untypeable character" error and never terminates
abnormally.  The code only does so for bytes below 0x80: for any byte
≥ 0x80 (e.g. the UTF-8 bytes 0xC3 0xA9 of a non-ASCII character),
`typeable.get(byte as usize).unwrap()` unwraps `None` — an index past the
end of the 128-bit array — and the call terminates abnormally instead of
returning the error. -/
theorem untypeable_byte_behavior :
    parse_charset_spec [195, 169] = .crash ∧
    parse_charset_spec [128] = .crash ∧
    parse_charset_spec [97, 128] = .crash ∧
    parse_charset_spec [7] = .err ("found untypeable or non-ASCII character") ∧
    parse_charset_spec [127] = .err ("found untypeable or non-ASCII character") := by
  decide

/-- Claim C6: the spec claims a range item marks exactly its endpoints'
inclusive interval, the start coming from the preceding `Char` transition.
The concrete examples hold ("a-d" gives exactly a,b,c,d and "a-a" equals
"a" alone), but the universal claim fails: in "ac-e" the literal-after-
literal arm (lib.rs:110-112) never updates the stored previous character,
so the range runs from 'a' instead of 'c' and the byte 'b' = 98 — in no
item of the specification — is marked. -/
theorem range_start_bug :
    parse_charset_spec [97, 99, 45, 101] = .ok [97, 98, 99, 100, 101] ∧
    parse_charset_spec [97, 45, 100] = .ok [97, 98, 99, 100] ∧
    parse_charset_spec [97, 45, 97] = parse_charset_spec [97] := by
  decide

/-- Claim C7: every successfully compiled charset is non-empty, strictly
ascending (hence duplicate-free) and contains only typeable bytes; and
whenever the final allowed set (after the optional inversion) is empty,
post-processing fails with the "character set is empty" error. -/
theorem charset_invariants :
    (∀ spec r, parse_charset_spec spec = .ok r →
      r ≠ [] ∧ List.Sorted (· < ·) r ∧ ∀ b ∈ r, typeableBit b = true) ∧
    (∀ (invert : Bool) (f : ℕ → Bool), (∀ i, i < 128 → finalSet invert f i = false) →
      finalize invert f = .err ("character set is empty")) := by
  constructor
  · exact parse_ok_shape
  · intro invert f hall
    have hcond : (List.range 128).all (fun i => !(finalSet invert f i)) = true := by
      apply List.all_eq_true.mpr
      intro i hi
      simp [hall i (List.mem_range.mp hi)]
    rw [finalize, if_pos hcond]

/-- Concrete instance of `charset_invariants`: the specification "a", and
an accumulated set covering the whole universe, inverted. -/
theorem charset_invariants_witness :
    (([97] : List ℕ) ≠ [] ∧ List.Sorted (· < ·) [97] ∧
      ∀ b ∈ ([97] : List ℕ), typeableBit b = true) ∧
    finalize true (fun _ => true) = .err ("character set is empty") :=
  ⟨charset_invariants.1 [97] [97] (by decide),
   charset_invariants.2 true (fun _ => true) (by decide)⟩

/-- Claim C8: the five malformed specifications are each rejected, with
five pairwise distinct error messages. -/
theorem spec_rejections :
    parse_charset_spec [] = .err ("empty charset specification") ∧
    parse_charset_spec [45, 120] = .err ("hyphens must be escaped") ∧
    parse_charset_spec [92, 120] = .err ("invalid escape sequence: \"\\x\"") ∧
    parse_charset_spec [97, 45] = .err ("unterminated character range") ∧
    parse_charset_spec [97, 92] = .err ("unterminated escape sequence") := by
  decide

/-- Claim C5, counterexample: the claim quantifies over every successfully
compiling specification S, but for S = "^a" (which compiles, to the whole
typeable set minus 'a', so its inverse {'a'} is non-empty) the code
compiles "^" ++ S = "^^a" by treating the second caret as a literal item:
byte 93 lies in the output of "^^a" although it also lies in the output of
S, so the output is not the typeable set minus the set of S. -/
theorem invert_claim_cex :
    ∃ r r', parse_charset_spec [94, 97] = .ok r ∧
      typeableBit 97 = true ∧ 97 ∉ r ∧
      parse_charset_spec [94, 94, 97] = .ok r' ∧
      93 ∈ r' ∧ 93 ∈ r := by
  refine ⟨(List.range 128).filter (fun i => finalSet true (bitSet (fun _ => false) 97) i),
    (List.range 128).filter
      (fun i => finalSet true (bitSet (bitSet (fun _ => false) 94) 97) i),
    ?_, ?_, ?_, ?_, ?_, ?_⟩ <;> decide

/-- Claim C5, amended: for every specification S that does not itself begin
with the inversion marker and compiles successfully to a charset r missing
at least one typeable byte, compiling "^" followed by S succeeds and
yields exactly the typeable bytes outside r (complement within the
typeable universe only). -/
theorem invert_correct_amended (S r : List ℕ) (b₀ : ℕ)
    (hhead : S.headD 0 ≠ CARET)
    (hok : parse_charset_spec S = .ok r)
    (hb₀T : typeableBit b₀ = true) (hb₀r : b₀ ∉ r) :
    ∃ r', parse_charset_spec (CARET :: S) = .ok r' ∧
      ∀ b, b ∈ r' ↔ (typeableBit b = true ∧ b ∉ r) := by
  have hSE : ¬(S.isEmpty = true) := by
    intro hE
    rw [parse_charset_spec, if_pos hE] at hok
    cases hok
  have hio : invertOf S = false := by
    rw [invertOf]
    exact beq_eq_false_iff_ne.mpr hhead
  have hSB : specBytes S = S := by
    rw [specBytes, hio]
    simp
  have hio2 : invertOf (CARET :: S) = true := by
    rw [invertOf]
    simp
  have hSB2 : specBytes (CARET :: S) = S := by
    rw [specBytes, hio2]
    simp
  rw [parse_charset_spec, if_neg hSE, hSB] at hok
  rcases hloop : parseLoop .Start (fun _ => false) S with _ | e | p
  · rw [hloop] at hok; cases hok
  · rw [hloop] at hok; cases hok
  · obtain ⟨st, f⟩ := p
    rw [hloop] at hok
    cases st with
    | Start =>
      have hfin : finalize false f = .ok r := by
        rw [← hio]
        exact hok
      obtain ⟨hfz, hmem⟩ := invert_finalize f r b₀ hfin hb₀T hb₀r
      refine ⟨_, ?_, hmem⟩
      rw [parse_charset_spec, if_neg (by simp), hSB2, hloop]
      show finalize (invertOf (CARET :: S)) f = _
      rw [hio2]
      exact hfz
    | Char prev =>
      have hfin : finalize false f = .ok r := by
        rw [← hio]
        exact hok
      obtain ⟨hfz, hmem⟩ := invert_finalize f r b₀ hfin hb₀T hb₀r
      refine ⟨_, ?_, hmem⟩
      rw [parse_charset_spec, if_neg (by simp), hSB2, hloop]
      show finalize (invertOf (CARET :: S)) f = _
      rw [hio2]
      exact hfz
    | Escape => cases hok
    | Range s => cases hok
    | RangeEscape s => cases hok

/-- Concrete instance of `invert_correct_amended`: S = "a", whose inverse
within the typeable universe misses the byte 'b' = 98. -/
theorem invert_correct_amended_witness :
    ∃ r', parse_charset_spec [94, 97] = .ok r' ∧
      ∀ b, b ∈ r' ↔ (typeableBit b = true ∧ b ∉ ([97] : List ℕ)) :=
  invert_correct_amended [97] [97] 98 (by decide) (by decide) (by decide) (by decide)

/-- Claim C10: a range whose end is strictly below its start marks no
byte at all (the `(start + 1)..=end` loop is empty), and a specification
consisting of such a reversed range compiles successfully to the
single-byte charset of its start, as if the range part were absent. -/
theorem reversed_range :
    (∀ (f : ℕ → Bool) (s e : ℕ), e < s → markRange f s e = f) ∧
    (∀ a b : ℕ, 32 ≤ a → a ≤ 126 → 32 ≤ b → b ≤ 126 → b < a →
      a ≠ HYPHEN → a ≠ BACKSLASH → a ≠ CARET → b ≠ HYPHEN → b ≠ BACKSLASH →
      parse_charset_spec [a, HYPHEN, b] = .ok [a]) := by
  constructor
  · exact fun f s e h => markRange_of_lt f s e h
  · intro a b h32a ha1 h32b hb1 hba haH haB haC hbH hbB
    have hga := typeable_get_some a h32a ha1
    have hgb := typeable_get_some b h32b hb1
    have hg45 : bitArrayGet TYPEABLE HYPHEN = some true := by decide
    have halt : a < 128 := by omega
    have s1 : parseLoop .Start (fun _ => false) [a, HYPHEN, b] =
        parseLoop (.Char a) (bitSet (fun _ => false) a) [HYPHEN, b] := by
      rw [parseLoop_start _ _ _ hga, if_neg haH, if_neg haB]
    have s2 : parseLoop (.Char a) (bitSet (fun _ => false) a) [HYPHEN, b] =
        parseLoop (.Range a) (bitSet (fun _ => false) a) [b] := by
      rw [parseLoop_char _ _ _ _ hg45, if_pos rfl]
    have s3 : parseLoop (.Range a) (bitSet (fun _ => false) a) [b] =
        .ok (.Start, markRange (bitSet (fun _ => false) a) a b) := by
      rw [parseLoop_range _ _ _ _ hgb, if_neg hbH, if_neg hbB]
      simp only [parseLoop]
    have hio : invertOf [a, HYPHEN, b] = false := by
      rw [invertOf]
      simp only [List.headD_cons]
      exact beq_eq_false_iff_ne.mpr haC
    have hSB : specBytes [a, HYPHEN, b] = [a, HYPHEN, b] := by
      rw [specBytes, hio]
      simp
    rw [parse_charset_spec, if_neg (by simp), hSB, s1, s2, s3]
    show finalize (invertOf [a, HYPHEN, b]) (markRange (bitSet (fun _ => false) a) a b) =
      .ok [a]
    rw [hio, markRange_of_lt _ _ _ hba]
    have hfeq : (fun i => finalSet false (bitSet (fun _ => false) a) i) =
        bitSet (fun _ => false) a := rfl
    have hcond : (List.range 128).all
        (fun i => !(finalSet false (bitSet (fun _ => false) a) i)) = false := by
      exact all_not_eq_false _ a halt (by simp [finalSet, bitSet])
    rw [finalize, if_neg (by simp [hcond]), hfeq, filter_bitSet_empty 128 a halt]

/-- Concrete instance of `reversed_range`: the specification "d-a". -/
theorem reversed_range_witness :
    markRange (fun _ => false) 100 97 = (fun _ => false) ∧
    parse_charset_spec [100, 45, 97] = .ok [100] :=
  ⟨reversed_range.1 (fun _ => false) 100 97 (by decide),
   reversed_range.2 100 97 (by decide) (by decide) (by decide) (by decide) (by decide)
     (by decide) (by decide) (by decide) (by decide) (by decide)⟩

/-- Claim C1: for every charset specification that compiles successfully
(or the default charset when none is given) and every password length and
count of at least 1, `generate` returns `ok` with exactly `num_passwords`
passwords, each exactly `password_len` bytes, every byte a member of the
compiled charset — for any behaviour of the entropy provider. -/
theorem generate_output_shape (spec : Option (List ℕ)) (L N : ℕ) (entropy : ℕ → ℕ)
    (C : List ℕ) (hC : charsetOf spec = .ok C) (_hL : 1 ≤ L) (_hN : 1 ≤ N) :
    ∃ pws, generate spec L N entropy = .ok pws ∧ pws.length = N ∧
      ∀ pw ∈ pws, pw.length = L ∧ ∀ b ∈ pw, b ∈ C := by
  have hne := charsetOf_ne_nil spec C hC
  refine ⟨_, generate_eq spec L N entropy C hC hne, by simp, ?_⟩
  intro pw hpw
  rw [List.mem_map] at hpw
  obtain ⟨j, hj, rfl⟩ := hpw
  refine ⟨by simp, ?_⟩
  intro b hb
  rw [List.mem_map] at hb
  obtain ⟨i, hi, rfl⟩ := hb
  have hlen : 0 < C.length := List.length_pos.mpr hne
  have hidx : drawn_value C.length (L * N) entropy / C.length ^ (j * L + i) % C.length
      < C.length := Nat.mod_lt _ hlen
  rw [List.getD_eq_getElem C 0 hidx]
  exact List.getElem_mem hidx

/-- Concrete instance of `generate_output_shape`: charset "ab", two
two-byte passwords... one password of length two. -/
theorem generate_output_shape_witness :
    charsetOf (some [97, 98]) = .ok [97, 98] ∧
    ∃ pws, generate (some [97, 98]) 2 1 (fun _ => 6) = .ok pws ∧ pws.length = 1 ∧
      ∀ pw ∈ pws, pw.length = 2 ∧ ∀ b ∈ pw, b ∈ ([97, 98] : List ℕ) :=
  ⟨by decide,
   generate_output_shape (some [97, 98]) 2 1 (fun _ => 6) [97, 98]
     (by decide) (by decide) (by decide)⟩

/-- Claim C2: with `base` the charset size and `value` the random integer
drawn in step 3, the byte at position `i` of password `j` is
`charset[d]`, where `d` is the `(j * password_len + i)`-th least
significant digit of the base-`base` expansion of `value` — repeated
floor division with remainder, passwords grouped in extraction order. -/
theorem generate_base_expansion (spec : Option (List ℕ)) (L N : ℕ) (entropy : ℕ → ℕ)
    (C : List ℕ) (hC : charsetOf spec = .ok C) (_hL : 1 ≤ L) (_hN : 1 ≤ N) :
    ∃ pws, generate spec L N entropy = .ok pws ∧ pws.length = N ∧
      (∀ pw ∈ pws, pw.length = L) ∧
      ∀ j i, j < N → i < L →
        (pws.getD j []).getD i 0 =
          C.getD (drawn_value C.length (L * N) entropy / C.length ^ (j * L + i)
            % C.length) 0 := by
  have hne := charsetOf_ne_nil spec C hC
  refine ⟨_, generate_eq spec L N entropy C hC hne, by simp, ?_, ?_⟩
  · intro pw hpw
    rw [List.mem_map] at hpw
    obtain ⟨j, hj, rfl⟩ := hpw
    simp
  · intro j i hj hi
    rw [List.getD_eq_getElem _ [] (by simpa using hj), List.getElem_map,
      List.getElem_range, List.getD_eq_getElem _ 0 (by simpa using hi),
      List.getElem_map, List.getElem_range]

/-- Concrete instance of `generate_base_expansion`: charset "ab",
password length 2, one password, entropy byte 6. -/
theorem generate_base_expansion_witness :
    ∃ pws, generate (some [97, 98]) 2 1 (fun _ => 6) = .ok pws ∧ pws.length = 1 ∧
      (∀ pw ∈ pws, pw.length = 2) ∧
      ∀ j i, j < 1 → i < 2 →
        (pws.getD j []).getD i 0 =
          ([97, 98] : List ℕ).getD
            (drawn_value ([97, 98] : List ℕ).length (2 * 1) (fun _ => 6)
              / ([97, 98] : List ℕ).length ^ (j * 2 + i)
              % ([97, 98] : List ℕ).length) 0 :=
  generate_base_expansion (some [97, 98]) 2 1 (fun _ => 6) [97, 98]
    (by decide) (by decide) (by decide)

/-- Claim C4, counterexample: the claim says the number of random bytes
requested is `⌈log2(base ^ total_chars)⌉ / 8 + 1`.  For `base = 2` and
`total_chars = 7` (e.g. a two-byte charset, one password of length 7)
that formula gives 1, but the code requests 2 bytes: `BigUint::bits`
returns the bit length of `base ^ total_chars` itself, which exceeds
`⌈log2⌉` by one exactly on powers of two. -/
theorem num_bytes_claim_cex :
    num_bytes 2 7 = 2 ∧ Nat.clog 2 (2 ^ 7) / 8 + 1 = 1 := by
  refine ⟨by decide, ?_⟩
  rw [Nat.clog_pow 2 7 (by omega)]

/-- Claim C4, amended: for every `base ≥ 2` and
`1 ≤ total_chars < 2 ^ 32` the number of random bytes requested is
`num_bits / 8 + 1`, where `num_bits` is the bit length of
`base ^ total_chars` — the unique `b` with
`2 ^ (b - 1) ≤ base ^ total_chars < 2 ^ b`, i.e.
`⌊log2(base ^ total_chars)⌋ + 1` rather than the claimed
`⌈log2(base ^ total_chars)⌉` (one more on exact powers of two).  The
upper bound on `total_chars` is required because the `as u32` cast at
lib.rs:44 wraps: at `total_chars = 2 ^ 32` the exponent truncates to 0
and exactly one byte is requested, as the last conjunct shows. -/
theorem num_bytes_amended (base total_chars : ℕ) (hb : 2 ≤ base)
    (_ht : 1 ≤ total_chars) (ht32 : total_chars < 2 ^ 32) :
    num_bytes base total_chars = num_bits base total_chars / 8 + 1 ∧
    2 ^ (num_bits base total_chars - 1) ≤ base ^ total_chars ∧
    base ^ total_chars < 2 ^ (num_bits base total_chars) ∧
    num_bytes base (2 ^ 32) = 1 := by
  have hpos : 1 ≤ base ^ total_chars := Nat.one_le_pow _ _ (by omega)
  have heq : num_bits base total_chars = bits (base ^ total_chars) := by
    rw [num_bits, Nat.mod_eq_of_lt ht32]
  have hwrap : num_bytes base (2 ^ 32) = 1 := by
    rw [num_bytes, num_bits, Nat.mod_self, pow_zero]
    rfl
  refine ⟨rfl, ?_, ?_, hwrap⟩
  · rw [heq]
    exact (bits_spec _ hpos).1
  · rw [heq]
    exact (bits_spec _ hpos).2

/-- Concrete instance of `num_bytes_amended` at the counterexample point
`base = 2`, `total_chars = 7`. -/
theorem num_bytes_amended_witness :
    num_bytes 2 7 = num_bits 2 7 / 8 + 1 ∧
    2 ^ (num_bits 2 7 - 1) ≤ 2 ^ 7 ∧ 2 ^ 7 < 2 ^ (num_bits 2 7) ∧
    num_bytes 2 (2 ^ 32) = 1 :=
  num_bytes_amended 2 7 (by decide) (by decide) (by decide)

/-- Claim C9: for every non-empty charset and positive parameters the
sampling loop terminates with `ok`, runs exactly `num_passwords`
iterations (one password pushed per iteration), and performs
`password_len * num_passwords` divisions in total — one per produced
byte, leaving `value / base ^ (password_len * num_passwords)` behind. -/
theorem sampler_terminates (C : List ℕ) (L N value : ℕ) (hC : C ≠ []) (_hN : 1 ≤ N) :
    ∃ pws, genPasswords C L N value = .ok (pws, value / C.length ^ (L * N)) ∧
      pws.length = N ∧ (pws.map List.length).sum = L * N := by
  refine ⟨_, genPasswords_spec C hC L N value, by simp, ?_⟩
  have hlens : ∀ pw ∈ (List.range N).map (fun j => (List.range L).map
      (fun i => C.getD (value / C.length ^ (j * L + i) % C.length) 0)),
      pw.length = L := by
    intro pw hpw
    rw [List.mem_map] at hpw
    obtain ⟨j, hj, rfl⟩ := hpw
    simp
  rw [sum_lengths L _ hlens]
  simp

/-- Concrete instance of `sampler_terminates`: charset "ab", two
passwords of length 3, `value = 6`. -/
theorem sampler_terminates_witness :
    ∃ pws, genPasswords [97, 98] 3 2 6 =
        .ok (pws, 6 / ([97, 98] : List ℕ).length ^ (3 * 2)) ∧
      pws.length = 2 ∧ (pws.map List.length).sum = 3 * 2 :=
  sampler_terminates [97, 98] 3 2 6 (by decide) (by decide)

end Passgen
